import Mathlib

/-!
Verification of the ProximaForge repository's core components against its
specification.

The repository's core consists of two functions in `src/main.py`:

* `parse_tree_structure_to_dict` (lines 60-112): converts indented tree text
  into a nested dictionary (folders are nested dicts, files are `None`);
* `create_project_structure` (lines 22-57): walks such a dictionary and
  creates folders and empty files on disk, logging each step.

`src/appv2.py` (lines 67-84) and `src/appv3.py` (lines 70-87) contain an
older variant of the materializer without the overwrite prompt, without the
error-category split and without the completion log line; it is embedded
separately below as `appv2MatEntries`.

Embedding conventions:

* Python strings are embedded as `List Char` (`Line`); Python operates on
  code points, as does `Char`.
* Python dicts are embedded as insertion-ordered association structures
  (`Entries`): `consFile k rest` is an entry `k ↦ None`, `consFolder k d rest`
  is an entry `k ↦ d`.  Overwriting an existing key keeps its position and
  new keys are appended at the end, exactly like a Python dict
  (`setEntry` below).
* The parser's stack holds references to dict objects (or `None`); since a
  dict reachable from the stack is always reachable from the root while it is
  on the stack, stack entries are embedded as access paths from the root.
  A stack entry referencing `None` (which Python produces when a folder line
  reuses the name of an existing file entry) is a path whose lookup yields
  the file marker; inserting through it raises `TypeError` in Python and is
  embedded as the error `PErr.noneInsert`.  Reading `stack[-1]` from an empty
  stack would raise `IndexError` and is embedded as `PErr.stackEmpty`.
* `parse_tree_structure_to_dict` first applies `text.strip().splitlines()`;
  the claims quantify over lines, so the embedding takes the list of lines
  as input.
* The filesystem is embedded as a finite partial map from paths (lists of
  components; `os.path.join(base, key)` becomes `base ++ [key]`) to entries
  (`dir` or `file content`).  Failure modes of `os.makedirs` and `open` are
  supplied by per-path oracles in `Env`, mirroring that the Python code
  catches the corresponding exceptions wherever they arise; the
  `messagebox.askyesno` overwrite prompt is the oracle `overwriteDecision`.
-/

/-! ## Data model: Python dicts of the parser and materializer -/

/-- Insertion-ordered dictionary whose values are either the file marker
(Python `None`) or a nested dictionary: `consFile k rest` is `k ↦ None`,
`consFolder k d rest` is `k ↦ d`. -/
inductive Entries (α : Type) where
  | nil : Entries α
  | consFile (k : α) (rest : Entries α) : Entries α
  | consFolder (k : α) (children : Entries α) (rest : Entries α) : Entries α
deriving DecidableEq, Repr

/-- A single dict value: Python `None` (file marker) or a nested dict. -/
inductive EVal (α : Type) where
  | file : EVal α
  | folder (children : Entries α) : EVal α
deriving DecidableEq, Repr

namespace Entries

variable {α : Type} [DecidableEq α]

/-- Lookup `d[k]`: first entry with key `k`. -/
def getEntry : Entries α → α → Option (EVal α)
  | .nil, _ => none
  | .consFile k' r, k => if k' = k then some .file else getEntry r k
  | .consFolder k' d r, k => if k' = k then some (.folder d) else getEntry r k

/-- Rebuild a cons cell from a key, a value and a tail. -/
def consOf (k : α) (v : EVal α) (r : Entries α) : Entries α :=
  match v with
  | .file => .consFile k r
  | .folder d => .consFolder k d r

/-- Assignment `d[k] = v`: an existing key keeps its position, a new key is
appended at the end (Python dict insertion-order semantics). -/
def setEntry : Entries α → α → EVal α → Entries α
  | .nil, k, v => consOf k v .nil
  | .consFile k' r, k, v =>
      if k' = k then consOf k v r else .consFile k' (setEntry r k v)
  | .consFolder k' d r, k, v =>
      if k' = k then consOf k v r else .consFolder k' d (setEntry r k v)

/-- The keys of a dict, in order. -/
def keys : Entries α → List α
  | .nil => []
  | .consFile k r => k :: keys r
  | .consFolder k _ r => k :: keys r

end Entries

/-- Value lookup along a path of keys. -/
def getAt {α : Type} [DecidableEq α] : List α → EVal α → Option (EVal α)
  | [], v => some v
  | k :: p, .folder d =>
      match d.getEntry k with
      | some v => getAt p v
      | none => none
  | _ :: _, .file => none

/-- Apply `f` to the dict addressed by a path, rebuilding the spine.  Fails
(`none`) when the path does not address a dict. -/
def updAt {α : Type} [DecidableEq α] (f : Entries α → Entries α) :
    List α → EVal α → Option (EVal α)
  | [], .folder d => some (.folder (f d))
  | [], .file => none
  | k :: p, .folder d =>
      match d.getEntry k with
      | some v =>
          match updAt f p v with
          | some v' => some (.folder (d.setEntry k v'))
          | none => none
      | none => none
  | _ :: _, .file => none

/-! ## TreeTextParser: embedding of `parse_tree_structure_to_dict`
(`src/main.py` lines 60-112) -/

/-- A line of input text, as a list of code points. -/
abbrev Line := List Char

/-- Parser dict keys are (cleaned) strings. -/
abbrev Key := List Char

/-- The character set of `line.lstrip('│├└─| \t')` (main.py line 70). -/
def stripSet : List Char := ['│', '├', '└', '─', '|', ' ', '\t']

/-- The whitespace set of Python's no-argument `str.strip()`, restricted to
ASCII (lines produced by `splitlines` contain no line-boundary characters;
non-ASCII unicode spaces are not modelled). -/
def isPyWS (c : Char) : Bool :=
  c = ' ' || c = '\t' || c = '\n' || c = '\r' || c = '\x0b' || c = '\x0c'

/-- Python `s.lstrip('│├└─| \t')`. -/
def lstripSet (l : Line) : Line := l.dropWhile (fun c => stripSet.contains c)

/-- Python `s.strip()` (whitespace from both ends). -/
def pyStrip (l : Line) : Line :=
  ((l.dropWhile isPyWS).reverse.dropWhile isPyWS).reverse

/-- The cleaning `cleaned_line = line.lstrip('│├└─| \t').strip()` of main.py line 70. -/
def cleanLine (line : Line) : Line := pyStrip (lstripSet line)

/-- Python `s.rstrip('/')` (main.py line 86). -/
def rstripSlashes (l : Line) : Line :=
  (l.reverse.dropWhile (fun c => c = '/')).reverse

/-- Python `s.count('\t')`. -/
def countTabs (l : Line) : Nat := l.countP (fun c => c = '\t')

/-- Depth computation of main.py lines 77-81:
`leading_whitespace = len(line) - len(cleaned_line)`; if the slice
`line[:leading_whitespace]` contains a tab the depth is its tab count,
otherwise `leading_whitespace // 4`. -/
def lineDepth (line : Line) : Nat :=
  let lw := line.length - (cleanLine line).length
  let pre := line.take lw
  if pre.contains '\t' then countTabs pre else lw / 4

/-- Classification of main.py line 84:
`cleaned_line.endswith('/') or '.' not in cleaned_line`. -/
def isFolderLabel (cleaned : Line) : Bool :=
  cleaned.getLast? == some '/' || !cleaned.contains '.'

/-- Parser state: the root dict under construction and the stack of
`(current_dict, depth)` pairs (top at the head); each dict reference is
embedded as its access path from the root. -/
structure PState where
  root : Entries Key
  stack : List (List Key × Int)
deriving Repr

/-- The Python runtime errors the parser can hit: reading `stack[-1]` from an
empty stack (`IndexError`), and membership test / item assignment on `None`
(`TypeError`, when a stack entry references the file marker).  `broken` marks
a dangling stack path, which cannot occur (see `parserTotal`). -/
inductive PErr where
  | stackEmpty
  | noneInsert
  | broken
deriving DecidableEq, Repr

/-- The pop loop of main.py lines 90-92 / 105-107:
`while current_depth >= depth: stack.pop()`. -/
def popToParent (stack : List (List Key × Int)) (depth : Int) :
    List (List Key × Int) :=
  stack.dropWhile (fun e => decide (depth ≤ e.2))

/-- Insertion `root[p] := setEntry (dict at p) k v`, with the (unreachable after the
`getAt` guards in `lineStep`) fallback of returning the root unchanged. -/
def insertAt (root : Entries Key) (p : List Key) (k : Key) (v : EVal Key) :
    Entries Key :=
  match updAt (fun d => d.setEntry k v) p (.folder root) with
  | some (.folder r') => r'
  | _ => root

/-- Processing of one line (main.py lines 68-110). -/
def lineStep (st : PState) (line : Line) : Except PErr PState :=
  let cleaned := cleanLine line
  if cleaned = [] then .ok st
  else
    let depth : Int := (lineDepth line : Int)
    match popToParent st.stack depth with
    | [] => .error .stackEmpty
    | (p, pd) :: rest =>
      match getAt p (.folder st.root) with
      | some (.folder d) =>
          if isFolderLabel cleaned then
            let name := rstripSlashes cleaned
            let root' :=
              if (d.getEntry name).isSome then st.root
              else insertAt st.root p name (.folder .nil)
            .ok ⟨root', (p ++ [name], depth) :: (p, pd) :: rest⟩
          else
            .ok ⟨insertAt st.root p cleaned .file, (p, pd) :: rest⟩
      | some .file => .error .noneInsert
      | none => .error .broken

/-- The initial stack `[(structure_dict, -1)]` (main.py line 66). -/
def initState : PState := ⟨.nil, [([], -1)]⟩

/-- Process a list of lines in order, stopping at the first error. -/
def runLines : PState → List Line → Except PErr PState
  | st, [] => .ok st
  | st, l :: ls =>
      match lineStep st l with
      | .ok st' => runLines st' ls
      | .error e => .error e

/-- The function `parse_tree_structure_to_dict`, taking the list of lines
(`text.strip().splitlines()`) as input and surfacing Python runtime errors
as `Except` errors. -/
def parse_tree_structure_to_dict (lines : List Line) :
    Except PErr (Entries Key) :=
  (runLines initState lines).map (fun st => st.root)

/-- The root sentinel of the parser's stack. -/
def stackHasBottom (st : PState) : Prop :=
  st.stack.getLast? = some ([], -1)

/-! ## Depth computation (claim C3) -/

/-- The indent width as the specification words it: "the count of
decoration characters and whitespace stripped from the line start". -/
def claimIndentWidth (line : Line) : Nat :=
  line.length - (lstripSet line).length

/-- The depth formula as the specification words it, computed from
`claimIndentWidth`. -/
def claimDepth (line : Line) : Nat :=
  let pre := line.take (claimIndentWidth line)
  if pre.contains '\t' then countTabs pre else claimIndentWidth line / 4

/-- The width the code actually uses: the full difference between the line
length and the cleaned label length, counting the stripped leading
decoration/whitespace AND any stripped trailing whitespace. -/
def amendedIndentWidth (line : Line) : Nat :=
  line.length - (cleanLine line).length

/-- The amended depth formula: tab test and tab count over the first
`amendedIndentWidth` characters of the line, else that width divided by 4. -/
def amendedDepth (line : Line) : Nat :=
  let pre := line.take (amendedIndentWidth line)
  if pre.contains '\t' then countTabs pre else amendedIndentWidth line / 4

/-- Relation between parse trees before and after a sequence of steps: every
file-marker entry either survives as a file-marker entry or some strict
ancestor entry has itself become a file marker (in which case the original
path no longer resolves). -/
def fileKindStable (t t' : Entries Key) : Prop :=
  ∀ q, getAt q (.folder t) = some .file →
    getAt q (.folder t') = some .file ∨
      ∃ q', q' <+: q ∧ q' ≠ q ∧ getAt q' (.folder t') = some .file

/-! ## Parser totality on inputs without dotted folder labels (amended C8) -/

/-- Well-formedness invariant of parse trees reachable on inputs whose folder
labels are dot-free: every file-marker entry has a key containing `'.'`
(files are classified so) and every folder entry has a dot-free key. -/
def entriesOK : Entries Key → Bool
  | .nil => true
  | .consFile k r => k.contains '.' && entriesOK r
  | .consFolder k d r => (!k.contains '.' && entriesOK d) && entriesOK r

/-- Whether a key is acceptable for the given value under `entriesOK`. -/
def keyFits (k : Key) (v : EVal Key) : Bool :=
  match v with
  | .file => k.contains '.'
  | .folder d => !k.contains '.' && entriesOK d

/-- Well-formedness of a dict value. -/
def nodeOK : EVal Key → Bool
  | .file => true
  | .folder d => entriesOK d

/-- Every dict reference on the stack addresses a dict of the current tree. -/
def stackPathsValid (st : PState) : Prop :=
  ∀ e ∈ st.stack, ∃ d, getAt e.1 (.folder st.root) = some (.folder d)

/-- Invariant maintained by the parser on inputs whose folder labels are
dot-free. -/
def parserInv (st : PState) : Prop :=
  stackHasBottom st ∧ stackPathsValid st ∧ entriesOK st.root = true

/-- The line condition of the amended C8: a folder-classified label, after
stripping trailing slashes, contains no dot (so it can never collide with a
file entry's name, which always contains a dot). -/
def safeLabel (line : Line) : Prop :=
  isFolderLabel (cleanLine line) = true →
    (rstripSlashes (cleanLine line)).contains '.' = false

/-! ## StructureMaterializer: embedding of `create_project_structure`
(`src/main.py` lines 22-57; variant: `src/appv2.py` lines 67-84 and
`src/appv3.py` lines 70-87) -/

/-- A filesystem entry: a directory or a file with its byte content. -/
inductive FsEntry where
  | dir : FsEntry
  | file (content : String) : FsEntry
deriving DecidableEq, Repr

/-- The filesystem as a partial map from paths (component lists) to entries;
`os.path.join(base, key)` is embedded as `base ++ [key]`. -/
def FS : Type := List String → Option FsEntry

/-- Outcome of `open(path, 'w')`. -/
inductive OpenOutcome where
  | success : OpenOutcome
  | permDenied : OpenOutcome
  | osErr : OpenOutcome
deriving DecidableEq, Repr

/-- The materializer's environment: per-path oracles for `os.makedirs`
failures, `open` failures and the `messagebox.askyesno` overwrite prompt. -/
structure Env where
  mkdirFails : List String → Bool
  openRes : List String → OpenOutcome
  overwriteDecision : List String → Bool

/-- One timestamped log line (timestamps are not modelled). -/
inductive LogLine where
  | createdFolder (p : List String) : LogLine
  | folderError (p : List String) : LogLine
  | createdFile (p : List String) : LogLine
  | skippedFile (p : List String) : LogLine
  | permissionDenied (p : List String) : LogLine
  | osError (p : List String) : LogLine
  | fileError (p : List String) : LogLine
  | completed : LogLine
deriving DecidableEq, Repr

/-- Python `os.path.exists`. -/
def fsExists (fs : FS) (p : List String) : Bool := (fs p).isSome

/-- Python `os.makedirs(p, exist_ok=True)`: every nonempty prefix of `p` that does
not yet exist becomes a directory. -/
def makedirs (fs : FS) (p : List String) : FS :=
  fun q =>
    if q ≠ [] ∧ q <+: p ∧ fs q = none then some FsEntry.dir else fs q

/-- Python `open(p, 'w')` on success: an empty file at `p`, truncating whatever was
there. -/
def writeEmpty (fs : FS) (p : List String) : FS :=
  fun q => if q = p then some (FsEntry.file "") else fs q

/-- The `for key, value in structure.items()` loop of
`create_project_structure` (main.py lines 28-54): returns the filesystem
and the log lines this call frame produced (without the frame's trailing
"completed" line).  The recursive call on a folder's children contributes
its own frame, including its trailing "completed" line (main.py line 55). -/
def matEntries (env : Env) (fs : FS) (base : List String) :
    Entries String → FS × List LogLine
  | .nil => (fs, [])
  | .consFile k rest =>
      let p := base ++ [k]
      let r1 :=
        if fsExists fs p && !env.overwriteDecision p then
          (fs, [LogLine.skippedFile p])
        else
          match env.openRes p with
          | .success => (writeEmpty fs p, [LogLine.createdFile p])
          | .permDenied => (fs, [LogLine.permissionDenied p])
          | .osErr => (fs, [LogLine.osError p])
      let r2 := matEntries env r1.1 base rest
      (r2.1, r1.2 ++ r2.2)
  | .consFolder k ch rest =>
      let p := base ++ [k]
      let r1 :=
        if fsExists fs p then
          let rc := matEntries env fs p ch
          (rc.1, rc.2 ++ [LogLine.completed])
        else if env.mkdirFails p then (fs, [LogLine.folderError p])
        else
          let rc := matEntries env (makedirs fs p) p ch
          (rc.1, LogLine.createdFolder p :: (rc.2 ++ [LogLine.completed]))
      let r2 := matEntries env r1.1 base rest
      (r2.1, r1.2 ++ r2.2)

/-- The function `create_project_structure(base_path, structure, log_text)`: the loop over
the top-level entries followed by this frame's "completed" log line. -/
def create_project_structure (env : Env) (fs : FS) (base : List String)
    (s : Entries String) : FS × List LogLine :=
  let r := matEntries env fs base s
  (r.1, r.2 ++ [LogLine.completed])

/-- The older materializer of appv2.py lines 67-84 / appv3.py lines 70-87:
no overwrite prompt (files are truncated unconditionally), a single failure
category per file, no "completed" line — and the recursion into a folder's
children happens even when creating the folder failed. -/
def appv2MatEntries (env : Env) (fs : FS) (base : List String) :
    Entries String → FS × List LogLine
  | .nil => (fs, [])
  | .consFile k rest =>
      let p := base ++ [k]
      let r1 :=
        match env.openRes p with
        | .success => (writeEmpty fs p, [LogLine.createdFile p])
        | .permDenied => (fs, [LogLine.fileError p])
        | .osErr => (fs, [LogLine.fileError p])
      let r2 := appv2MatEntries env r1.1 base rest
      (r2.1, r1.2 ++ r2.2)
  | .consFolder k ch rest =>
      let p := base ++ [k]
      let r1 :=
        if fsExists fs p then (fs, ([] : List LogLine))
        else if env.mkdirFails p then (fs, [LogLine.folderError p])
        else (makedirs fs p, [LogLine.createdFolder p])
      let rc := appv2MatEntries env r1.1 p ch
      let r2 := appv2MatEntries env rc.1 base rest
      (r2.1, (r1.2 ++ rc.2) ++ r2.2)

/-- The empty filesystem. -/
def emptyFS : FS := fun _ => none

/-- The environment of the "happy path" example: nothing fails, every
prompt declines. -/
def envOk : Env := ⟨fun _ => false, fun _ => .success, fun _ => false⟩

/-- An environment where creating folder `A` fails and every file open
fails with an OS error (as it would under a missing parent directory). -/
def envMkdirAFails : Env :=
  ⟨fun p => decide (p = ["A"]), fun _ => .osErr, fun _ => false⟩

/-- No duplicate sibling keys, at every level: true of every structure that
comes from a Python dict (`structure.items()` cannot repeat a key). -/
def keysOk : Entries String → Bool
  | .nil => true
  | .consFile k r => !(Entries.keys r).contains k && keysOk r
  | .consFolder k d r => (!(Entries.keys r).contains k && keysOk d) && keysOk r

/-! ## Theorems -/

/-! ## Stack lemmas: parent selection and stack safety -/

theorem dropWhile_head?_eq_find? {α : Type} (p : α → Bool) (l : List α) :
    (l.dropWhile p).head? = l.find? (fun a => !p a) := by
  induction l with
  | nil => rfl
  | cons x xs ih =>
    by_cases h : p x
    · simp [List.dropWhile_cons, List.find?_cons, h, ih]
    · simp [List.dropWhile_cons, List.find?_cons, h]

theorem dropWhile_getLast {α : Type} (p : α → Bool) (a : α) :
    ∀ l : List α, l.getLast? = some a → p a = false →
      l.dropWhile p ≠ [] ∧ (l.dropWhile p).getLast? = some a := by
  intro l
  induction l with
  | nil => intro h _; simp at h
  | cons x xs ih =>
    intro hl ha
    cases xs with
    | nil =>
      simp only [List.getLast?_singleton, Option.some.injEq] at hl
      subst hl
      simp [List.dropWhile_cons, ha]
    | cons y ys =>
      have hl' : (y :: ys).getLast? = some a := by
        rwa [List.getLast?_cons_cons] at hl
      by_cases h : p x
      · rw [List.dropWhile_cons_of_pos h]
        exact ih hl' ha
      · rw [List.dropWhile_cons_of_neg h]
        exact ⟨by simp, hl⟩

theorem sentinel_fails_pop (line : Line) :
    (fun e : List Key × Int =>
        decide (((lineDepth line : Nat) : Int) ≤ e.2)) ([], -1) = false := by
  simp only [decide_eq_false_iff_not]
  omega

theorem lineStep_no_stackEmpty (st : PState) (line : Line)
    (h : stackHasBottom st) :
    lineStep st line ≠ .error .stackEmpty ∧
      ∀ st', lineStep st line = .ok st' → stackHasBottom st' := by
  unfold lineStep
  by_cases hc : cleanLine line = []
  · rw [if_pos hc]
    exact ⟨by simp, fun st' h' => by cases h'; exact h⟩
  · rw [if_neg hc]
    obtain ⟨hne, hlast⟩ :=
      dropWhile_getLast
        (fun e : List Key × Int =>
          decide (((lineDepth line : Nat) : Int) ≤ e.2))
        ([], -1) st.stack h (sentinel_fails_pop line)
    cases hpop : popToParent st.stack ((lineDepth line : Nat) : Int) with
    | nil => exact absurd hpop hne
    | cons hd tl =>
      obtain ⟨p, pd⟩ := hd
      have hlast' : ((p, pd) :: tl).getLast? = some ([], -1) := by
        rw [← hpop]; exact hlast
      cases hget : getAt p (.folder st.root) with
      | none => simp [hpop, hget]
      | some v =>
        cases v with
        | file => simp [hpop, hget]
        | folder d =>
          by_cases hf : isFolderLabel (cleanLine line) = true
          · simp only [hpop, hget, hf, if_true]
            refine ⟨by simp, fun st' h' => ?_⟩
            cases h'
            show (_ :: (p, pd) :: tl).getLast? = some ([], -1)
            rwa [List.getLast?_cons_cons]
          · simp only [hpop, hget, hf, if_false, Bool.false_eq_true]
            exact ⟨by simp, fun st' h' => by cases h'; exact hlast'⟩

theorem runLines_no_stackEmpty :
    ∀ (lines : List Line) (st : PState), stackHasBottom st →
      runLines st lines ≠ .error .stackEmpty := by
  intro lines
  induction lines with
  | nil => intro st _; simp [runLines]
  | cons l ls ih =>
    intro st h
    unfold runLines
    cases hstep : lineStep st l with
    | ok st' => exact ih st' ((lineStep_no_stackEmpty st l h).2 st' hstep)
    | error e =>
      have h1 := (lineStep_no_stackEmpty st l h).1
      rw [hstep] at h1
      simpa using fun he => h1 (by rw [he])

/-- C10: the parser's stack-pop loops never remove the root sentinel: every
line depth is ≥ 0 while the sentinel has depth -1, so the embedded
`stack[-1]` accesses never fail and the `IndexError` outcome
(`PErr.stackEmpty`) is unreachable for every input. -/
theorem parserStackNeverEmpty (lines : List Line) :
    parse_tree_structure_to_dict lines ≠ .error .stackEmpty := by
  unfold parse_tree_structure_to_dict
  have h := runLines_no_stackEmpty lines initState (by rfl)
  cases hrun : runLines initState lines with
  | ok st => simp [hrun, Except.map]
  | error e =>
    rw [hrun] at h
    simp only [Except.map]
    simpa using fun he => h (by rw [he])

/-- C2: the stack-pop loop (`while current_depth >= depth: stack.pop()`)
selects as parent the topmost stack entry of depth strictly less than the
line's depth (the root sentinel of depth -1 if no other qualifies), and it
pops an entry of depth equal to the line's depth, so an equal-depth line
becomes a sibling rather than a child. -/
theorem parentSelection (s : List (List Key × Int)) (d : Int) (q : List Key)
    (hlast : s.getLast? = some ([], -1)) (hd : 0 ≤ d) :
    popToParent s d ≠ [] ∧
      (popToParent s d).head? = s.find? (fun e => decide (e.2 < d)) ∧
      popToParent ((q, d) :: s) d = popToParent s d := by
  have hbot : (fun e : List Key × Int => decide (d ≤ e.2)) ([], -1) = false := by
    simp only [decide_eq_false_iff_not]
    omega
  obtain ⟨h1, _⟩ :=
    dropWhile_getLast (fun e : List Key × Int => decide (d ≤ e.2))
      ([], -1) s hlast hbot
  refine ⟨h1, ?_, ?_⟩
  · rw [show popToParent s d = s.dropWhile (fun e => decide (d ≤ e.2)) from rfl,
      dropWhile_head?_eq_find?]
    congr 1
    funext e
    rw [← decide_not, decide_eq_decide]
    exact not_le
  · rw [show popToParent ((q, d) :: s) d
        = ((q, d) :: s).dropWhile (fun e => decide (d ≤ e.2)) from rfl,
      List.dropWhile_cons_of_pos (by simp)]
    rfl

theorem parentSelectionWitness :
    ([([['a']], 0), ([], -1)] : List (List Key × Int)).getLast? = some ([], -1) ∧
      (0 : Int) ≤ 0 ∧
      popToParent [([['a']], 0), ([], -1)] 0 ≠ [] ∧
      (popToParent [([['a']], 0), ([], -1)] 0).head?
        = ([([['a']], 0), ([], -1)] : List (List Key × Int)).find?
            (fun e => decide (e.2 < 0)) ∧
      popToParent (([['b']], 0) :: [([['a']], 0), ([], -1)]) 0
        = popToParent [([['a']], 0), ([], -1)] 0 := by
  refine ⟨by decide, by decide, ?_⟩
  exact parentSelection [([['a']], 0), ([], -1)] 0 [['b']] (by decide) (by decide)

/-- Counterexample to C3: for the line `"x.y    "` (four trailing spaces,
no leading indent) the code computes depth 1, because
`leading_whitespace = len(line) - len(cleaned_line)` also counts the
whitespace stripped from the line END by `.strip()`; the claim's formula
(count of characters stripped from the line start) gives depth 0. -/
theorem depthCountsTrailingWhitespace :
    lineDepth ['x', '.', 'y', ' ', ' ', ' ', ' '] = 1 ∧
      claimDepth ['x', '.', 'y', ' ', ' ', ' ', ' '] = 0 := by
  constructor <;> rfl

/-- C3 (amended): for every line the parser's depth equals the amended
formula, and behaviourally a trailing-whitespace file line is placed at the
resulting depth — `"x.y    "` at width 4 attaches below the depth-0 folder
`a` instead of becoming its sibling. -/
theorem depthFromStripDifference :
    (∀ line, lineDepth line = amendedDepth line) ∧
      parse_tree_structure_to_dict [['a', '/'], ['x', '.', 'y', ' ', ' ', ' ', ' ']]
        = .ok (.consFolder ['a'] (.consFile ['x', '.', 'y'] .nil) .nil) := by
  exact ⟨fun _ => rfl, by rfl⟩

/-! ## Classification (claim C1) -/

theorem isFolderLabel_iff (c : Line) :
    isFolderLabel c = true ↔ (c.getLast? = some '/' ∨ '.' ∉ c) := by
  simp [isFolderLabel, List.elem_iff]

/-- C1: a nonempty cleaned label parses to a folder entry (with trailing
slashes stripped from the stored name) exactly when it ends with `'/'` or
contains no `'.'`, and to a file entry otherwise. -/
theorem labelClassification (line : Line) (h : cleanLine line ≠ []) :
    parse_tree_structure_to_dict [line] =
      .ok (if (cleanLine line).getLast? = some '/' ∨ '.' ∉ cleanLine line
        then Entries.consFolder (rstripSlashes (cleanLine line)) .nil .nil
        else Entries.consFile (cleanLine line) .nil) := by
  have hpop : popToParent [([], -1)] ((lineDepth line : Nat) : Int)
      = [([], -1)] := by
    rw [show popToParent [([], -1)] ((lineDepth line : Nat) : Int)
        = List.dropWhile
            (fun e : List Key × Int =>
              decide (((lineDepth line : Nat) : Int) ≤ e.2))
            [([], -1)] from rfl,
      List.dropWhile_cons_of_neg (by simpa using sentinel_fails_pop line)]
  by_cases hf : isFolderLabel (cleanLine line) = true
  · have hstep : lineStep initState line =
        .ok ⟨.consFolder (rstripSlashes (cleanLine line)) .nil .nil,
          [([rstripSlashes (cleanLine line)], ((lineDepth line : Nat) : Int)),
            ([], -1)]⟩ := by
      unfold lineStep
      rw [if_neg h]
      simp [hpop, getAt, hf, Entries.getEntry, insertAt, updAt,
        Entries.setEntry, Entries.consOf, initState]
    unfold parse_tree_structure_to_dict runLines
    rw [hstep, if_pos ((isFolderLabel_iff _).mp hf)]
    rfl
  · have hstep : lineStep initState line =
        .ok ⟨.consFile (cleanLine line) .nil, [([], -1)]⟩ := by
      unfold lineStep
      rw [if_neg h]
      simp [hpop, getAt, hf, Entries.getEntry, insertAt, updAt,
        Entries.setEntry, Entries.consOf, initState]
    unfold parse_tree_structure_to_dict runLines
    rw [hstep, if_neg (fun hc => hf ((isFolderLabel_iff _).mpr hc))]
    rfl

/-- Witness for C1 at the claim's own example: the label `v1.0` contains a
dot and has no trailing slash, so it is classified as a file. -/
theorem labelClassificationWitness :
    cleanLine ['v', '1', '.', '0'] ≠ [] ∧
      parse_tree_structure_to_dict [['v', '1', '.', '0']]
        = .ok (.consFile ['v', '1', '.', '0'] .nil) := by
  refine ⟨by decide, ?_⟩
  rw [labelClassification ['v', '1', '.', '0'] (by decide),
    if_neg (by decide)]
  rfl

/-! ## Counterexamples on entry-kind stability and parser totality -/

/-- Counterexample to C9: the folder entry `v1.0` created by the line
`"v1.0/"` is overwritten by the file marker when the later line `"v1.0"`
(classified as a file) attaches to the same parent. -/
theorem folderEntryOverwrittenByFile :
    parse_tree_structure_to_dict [['v', '1', '.', '0', '/']]
        = .ok (.consFolder ['v', '1', '.', '0'] .nil .nil) ∧
      parse_tree_structure_to_dict [['v', '1', '.', '0', '/'], ['v', '1', '.', '0']]
        = .ok (.consFile ['v', '1', '.', '0'] .nil) := by
  exact ⟨by rfl, by rfl⟩

/-- Counterexample to C8: on the input `"x.y"` / `"x.y/"` / `"\tc.d"` the
folder line `"x.y/"` reuses the name of the existing file entry `x.y`, so
the parser pushes the `None` value onto its stack and the third line's
item assignment on `None` raises a `TypeError` (embedded as
`PErr.noneInsert`): parsing does not return a hierarchy. -/
theorem parseRaisesOnFileNameReuse :
    parse_tree_structure_to_dict
        [['x', '.', 'y'], ['x', '.', 'y', '/'], ['\t', 'c', '.', 'd']]
      = .error .noneInsert := by rfl

/-! ## Tree mutation lemmas (for the amended C8/C9 theorems) -/

theorem getEntry_setEntry_self {α : Type} [DecidableEq α]
    (d : Entries α) (k : α) (v : EVal α) :
    (d.setEntry k v).getEntry k = some v := by
  induction d with
  | nil => cases v <;> simp [Entries.setEntry, Entries.consOf, Entries.getEntry]
  | consFile k' r ih =>
    by_cases h : k' = k
    · subst h
      cases v <;> simp [Entries.setEntry, Entries.consOf, Entries.getEntry]
    · simp [Entries.setEntry, Entries.getEntry, h, ih]
  | consFolder k' d0 r ihd ihr =>
    by_cases h : k' = k
    · subst h
      cases v <;> simp [Entries.setEntry, Entries.consOf, Entries.getEntry]
    · simp [Entries.setEntry, Entries.getEntry, h, ihr]

theorem getEntry_setEntry_ne {α : Type} [DecidableEq α]
    (d : Entries α) (k k' : α) (v : EVal α) (h : k ≠ k') :
    (d.setEntry k v).getEntry k' = d.getEntry k' := by
  induction d with
  | nil => cases v <;> simp [Entries.setEntry, Entries.consOf, Entries.getEntry, h]
  | consFile k0 r ih =>
    by_cases h0 : k0 = k
    · subst h0
      cases v <;>
        simp [Entries.setEntry, Entries.consOf, Entries.getEntry, h]
    · simp [Entries.setEntry, Entries.getEntry, h0, ih]
  | consFolder k0 d0 r ihd ihr =>
    by_cases h0 : k0 = k
    · subst h0
      cases v <;>
        simp [Entries.setEntry, Entries.consOf, Entries.getEntry, h]
    · simp [Entries.setEntry, Entries.getEntry, h0, ihr]

theorem getAt_append {α : Type} [DecidableEq α] :
    ∀ (p q : List α) (t : EVal α),
      getAt (p ++ q) t =
        match getAt p t with
        | some v => getAt q v
        | none => none := by
  intro p
  induction p with
  | nil => intro q t; rfl
  | cons a p' ih =>
    intro q t
    cases t with
    | file => rfl
    | folder d =>
      cases hga : d.getEntry a with
      | none =>
        show getAt (a :: (p' ++ q)) (.folder d) = _
        simp only [getAt, hga]
      | some n =>
        show getAt (a :: (p' ++ q)) (.folder d) = _
        simp only [getAt, hga]
        exact ih q n

theorem updAt_folder {α : Type} [DecidableEq α] (f : Entries α → Entries α) :
    ∀ (p : List α) (d : Entries α) (t' : EVal α),
      updAt f p (.folder d) = some t' → ∃ d', t' = .folder d' := by
  intro p d t' h
  cases p with
  | nil =>
    rw [updAt] at h
    exact ⟨f d, by injection h with h'; rw [← h']⟩
  | cons a p' =>
    cases hga : d.getEntry a with
    | none => simp [updAt, hga] at h
    | some n =>
      cases hup : updAt f p' n with
      | none => simp [updAt, hga, hup] at h
      | some n' =>
        simp only [updAt, hga, hup] at h
        exact ⟨d.setEntry a n', by injection h with h'; rw [← h']⟩

theorem updAt_isSome {α : Type} [DecidableEq α] (f : Entries α → Entries α) :
    ∀ (p : List α) (t : EVal α) (d : Entries α),
      getAt p t = some (.folder d) → ∃ t', updAt f p t = some t' := by
  intro p
  induction p with
  | nil =>
    intro t d h
    rw [getAt] at h
    injection h with h'
    rw [h', updAt]
    exact ⟨_, rfl⟩
  | cons a p' ih =>
    intro t d h
    cases t with
    | file => exact absurd h (by simp [getAt])
    | folder d0 =>
      cases hga : d0.getEntry a with
      | none => simp [getAt, hga] at h
      | some n =>
        simp only [getAt, hga] at h
        obtain ⟨t', ht'⟩ := ih n d h
        refine ⟨.folder (d0.setEntry a t'), ?_⟩
        simp only [updAt, hga, ht']

theorem getAt_updAt_below {α : Type} [DecidableEq α] (k : α) (v : EVal α) :
    ∀ (p : List α) (t t' : EVal α),
      updAt (fun d => d.setEntry k v) p t = some t' →
      ∀ q, getAt (p ++ k :: q) t' = getAt q v := by
  intro p
  induction p with
  | nil =>
    intro t t' h q
    cases t with
    | file => simp [updAt] at h
    | folder d =>
      simp only [updAt, Option.some.injEq] at h
      subst h
      simp only [List.nil_append, getAt, getEntry_setEntry_self]
  | cons a p' ih =>
    intro t t' h q
    cases t with
    | file => simp [updAt] at h
    | folder d =>
      cases hga : d.getEntry a with
      | none => simp [updAt, hga] at h
      | some n =>
        cases hup : updAt (fun d => d.setEntry k v) p' n with
        | none => simp [updAt, hga, hup] at h
        | some n' =>
          simp only [updAt, hga, hup, Option.some.injEq] at h
          subst h
          show getAt (a :: (p' ++ k :: q)) (.folder (d.setEntry a n')) = _
          simp only [getAt, getEntry_setEntry_self]
          exact ih n n' hup q

theorem getAt_updAt_off {α : Type} [DecidableEq α] (k : α) (v : EVal α) :
    ∀ (p : List α) (t t' : EVal α),
      updAt (fun d => d.setEntry k v) p t = some t' →
      ∀ q, ¬ q <+: p → ¬ (p ++ [k]) <+: q → getAt q t' = getAt q t := by
  intro p
  induction p with
  | nil =>
    intro t t' h q hq1 hq2
    cases t with
    | file => simp [updAt] at h
    | folder d =>
      simp only [updAt, Option.some.injEq] at h
      subst h
      cases q with
      | nil => exact absurd List.nil_prefix hq1
      | cons b q' =>
        have hbk : k ≠ b := fun hkb =>
          hq2 (List.cons_prefix_cons.mpr ⟨hkb, List.nil_prefix⟩)
        show getAt (b :: q') (.folder (d.setEntry k v))
          = getAt (b :: q') (.folder d)
        simp only [getAt, getEntry_setEntry_ne d k b v hbk]
  | cons a p' ih =>
    intro t t' h q hq1 hq2
    cases t with
    | file => simp [updAt] at h
    | folder d =>
      cases hga : d.getEntry a with
      | none => simp [updAt, hga] at h
      | some n =>
        cases hup : updAt (fun d => d.setEntry k v) p' n with
        | none => simp [updAt, hga, hup] at h
        | some n' =>
          simp only [updAt, hga, hup, Option.some.injEq] at h
          subst h
          cases q with
          | nil => exact absurd List.nil_prefix hq1
          | cons b q' =>
            by_cases hba : b = a
            · subst hba
              have h1 : ¬ q' <+: p' := fun hpre =>
                hq1 (List.cons_prefix_cons.mpr ⟨rfl, hpre⟩)
              have h2 : ¬ (p' ++ [k]) <+: q' := fun hpre =>
                hq2 (by
                  show (b :: (p' ++ [k])) <+: b :: q'
                  exact List.cons_prefix_cons.mpr ⟨rfl, hpre⟩)
              show getAt (b :: q') (.folder (d.setEntry b n')) = _
              simp only [getAt, getEntry_setEntry_self, hga]
              exact ih n n' hup q' h1 h2
            · show getAt (b :: q') (.folder (d.setEntry a n')) = _
              simp only [getAt,
                getEntry_setEntry_ne d a b n' (fun hab => hba hab.symm)]

theorem getAt_updAt_chain {α : Type} [DecidableEq α] (k : α) (v : EVal α) :
    ∀ (p : List α) (t t' : EVal α),
      updAt (fun d => d.setEntry k v) p t = some t' →
      ∀ q, q <+: p →
        (∃ d0, getAt q t = some (.folder d0)) ∧
        (∃ d1, getAt q t' = some (.folder d1)) := by
  intro p
  induction p with
  | nil =>
    intro t t' h q hq
    rw [List.prefix_nil] at hq
    subst hq
    cases t with
    | file => simp [updAt] at h
    | folder d =>
      simp only [updAt, Option.some.injEq] at h
      subst h
      exact ⟨⟨d, rfl⟩, ⟨d.setEntry k v, rfl⟩⟩
  | cons a p' ih =>
    intro t t' h q hq
    cases t with
    | file => simp [updAt] at h
    | folder d =>
      cases hga : d.getEntry a with
      | none => simp [updAt, hga] at h
      | some n =>
        cases hup : updAt (fun d => d.setEntry k v) p' n with
        | none => simp [updAt, hga, hup] at h
        | some n' =>
          simp only [updAt, hga, hup, Option.some.injEq] at h
          subst h
          cases q with
          | nil => exact ⟨⟨d, rfl⟩, ⟨d.setEntry a n', rfl⟩⟩
          | cons b q' =>
            obtain ⟨hba, hq'⟩ := List.cons_prefix_cons.mp hq
            subst hba
            obtain ⟨hold, hnew⟩ := ih n n' hup q' hq'
            constructor
            · obtain ⟨d0, hd0⟩ := hold
              exact ⟨d0, by simp only [getAt, hga]; exact hd0⟩
            · obtain ⟨d1, hd1⟩ := hnew
              exact ⟨d1, by
                simp only [getAt, getEntry_setEntry_self]; exact hd1⟩

theorem insertAt_spec (root : Entries Key) (p : List Key) (k : Key)
    (v : EVal Key) (d : Entries Key)
    (h : getAt p (.folder root) = some (.folder d)) :
    updAt (fun d0 => d0.setEntry k v) p (.folder root)
      = some (.folder (insertAt root p k v)) := by
  obtain ⟨t', ht'⟩ := updAt_isSome (fun d0 => d0.setEntry k v) p (.folder root) d h
  obtain ⟨d', hd'⟩ := updAt_folder _ p root t' ht'
  subst hd'
  have hins : insertAt root p k v = d' := by
    rw [insertAt, ht']
  rw [ht', hins]

theorem getAt_none_of_file_ancestor {α : Type} [DecidableEq α]
    (q' q : List α) (t : EVal α) (hpre : q' <+: q) (hne : q' ≠ q)
    (hf : getAt q' t = some .file) : getAt q t = none := by
  obtain ⟨r, rfl⟩ := hpre
  cases r with
  | nil => simp at hne
  | cons b r' =>
    rw [getAt_append, hf]
    rfl

theorem fileKindStable_refl (t : Entries Key) : fileKindStable t t :=
  fun _ h => .inl h

theorem fileKindStable_trans {t t' t'' : Entries Key}
    (h1 : fileKindStable t t') (h2 : fileKindStable t' t'') :
    fileKindStable t t'' := by
  intro q hq
  rcases h1 q hq with h | ⟨q1, hpre, hne, hf⟩
  · exact h2 q h
  · rcases h2 q1 hf with h | ⟨q2, hpre2, hne2, hf2⟩
    · exact .inr ⟨q1, hpre, hne, h⟩
    · refine .inr ⟨q2, hpre2.trans hpre, ?_, hf2⟩
      intro he
      subst he
      exact hne (hpre.eq_of_length
        (le_antisymm hpre.length_le hpre2.length_le))

theorem lineStep_fileKindStable (st st' : PState) (line : Line)
    (h : lineStep st line = .ok st') : fileKindStable st.root st'.root := by
  unfold lineStep at h
  by_cases hc : cleanLine line = []
  · rw [if_pos hc] at h
    cases h
    exact fileKindStable_refl _
  · rw [if_neg hc] at h
    cases hpop : popToParent st.stack ((lineDepth line : Nat) : Int) with
    | nil =>
      simp only [hpop] at h
      simp at h
    | cons hd tl =>
      obtain ⟨p, pd⟩ := hd
      simp only [hpop] at h
      cases hget : getAt p (.folder st.root) with
      | none => simp only [hget] at h; simp at h
      | some v =>
        cases v with
        | file => simp only [hget] at h; simp at h
        | folder d =>
          simp only [hget] at h
          by_cases hf : isFolderLabel (cleanLine line) = true
          · rw [if_pos hf] at h
            by_cases hk :
                (d.getEntry (rstripSlashes (cleanLine line))).isSome = true
            · rw [if_pos hk] at h
              cases h
              exact fileKindStable_refl _
            · rw [if_neg hk] at h
              cases h
              have hupd := insertAt_spec st.root p
                (rstripSlashes (cleanLine line)) (.folder .nil) d hget
              intro q hq
              by_cases h1 : q <+: p
              · obtain ⟨⟨d0, hd0⟩, _⟩ := getAt_updAt_chain
                  (rstripSlashes (cleanLine line)) (.folder .nil) p
                  (.folder st.root) _ hupd q h1
                rw [hq] at hd0
                simp at hd0
              · by_cases h2 : (p ++ [rstripSlashes (cleanLine line)]) <+: q
                · exfalso
                  obtain ⟨r, rfl⟩ := h2
                  rw [getAt_append] at hq
                  have hnone : getAt (p ++ [rstripSlashes (cleanLine line)])
                      (.folder st.root) = none := by
                    rw [getAt_append, hget]
                    show getAt [rstripSlashes (cleanLine line)] (.folder d)
                      = none
                    rw [getAt]
                    cases hkk :
                        d.getEntry (rstripSlashes (cleanLine line)) with
                    | none => rfl
                    | some v0 => exact absurd (by rw [hkk]; rfl) hk
                  rw [hnone] at hq
                  simp at hq
                · left
                  rw [getAt_updAt_off _ _ p _ _ hupd q h1 h2]
                  exact hq
          · rw [if_neg hf] at h
            cases h
            have hupd := insertAt_spec st.root p (cleanLine line) .file d hget
            intro q hq
            by_cases h1 : q <+: p
            · obtain ⟨⟨d0, hd0⟩, _⟩ := getAt_updAt_chain
                (cleanLine line) .file p (.folder st.root) _ hupd q h1
              rw [hq] at hd0
              simp at hd0
            · by_cases h2 : (p ++ [cleanLine line]) <+: q
              · obtain ⟨r, rfl⟩ := h2
                cases r with
                | nil =>
                  left
                  rw [List.append_nil]
                  exact getAt_updAt_below (cleanLine line) .file p _ _ hupd []
                | cons b r' =>
                  right
                  refine ⟨p ++ [cleanLine line], ⟨b :: r', rfl⟩, ?_, ?_⟩
                  · intro he
                    have hlen := congrArg List.length he
                    simp at hlen
                  · exact getAt_updAt_below (cleanLine line) .file p _ _ hupd []
              · left
                rw [getAt_updAt_off _ _ p _ _ hupd q h1 h2]
                exact hq

theorem runLines_append (l1 l2 : List Line) :
    ∀ st : PState,
      runLines st (l1 ++ l2) =
        match runLines st l1 with
        | .ok st' => runLines st' l2
        | .error e => .error e := by
  induction l1 with
  | nil => intro st; rfl
  | cons x xs ih =>
    intro st
    show runLines st (x :: (xs ++ l2)) = _
    cases hstep : lineStep st x with
    | ok st1 =>
      simp only [runLines, hstep]
      exact ih st1
    | error e => simp only [runLines, hstep]

theorem runLines_fileKindStable :
    ∀ (lines : List Line) (st st' : PState),
      runLines st lines = .ok st' → fileKindStable st.root st'.root := by
  intro lines
  induction lines with
  | nil =>
    intro st st' h
    cases h
    exact fileKindStable_refl _
  | cons l ls ih =>
    intro st st' h
    simp only [runLines] at h
    cases hstep : lineStep st l with
    | error e => rw [hstep] at h; simp at h
    | ok st1 =>
      rw [hstep] at h
      exact fileKindStable_trans (lineStep_fileKindStable st st1 l hstep)
        (ih st1 st' h)

/-- C9 (amended): an entry created as a file marker is never replaced by a
mapping — in any successful parse, a path that resolved to the file marker
after a prefix of the lines either still resolves to the file marker after
further lines or no longer resolves at all (its subtree disappeared because
an ancestor folder entry was itself overwritten by the file marker); a
folder entry, by contrast, CAN be overwritten by a later same-named file
line (see the counterexample). -/
theorem fileEntriesStayFiles (l1 l2 : List Line) (st1 st2 : PState)
    (q : List Key)
    (h1 : runLines initState l1 = .ok st1)
    (h2 : runLines initState (l1 ++ l2) = .ok st2)
    (hq : getAt q (.folder st1.root) = some .file) :
    getAt q (.folder st2.root) = some .file ∨
      getAt q (.folder st2.root) = none := by
  have hrun2 : runLines st1 l2 = .ok st2 := by
    rw [runLines_append, h1] at h2
    exact h2
  rcases runLines_fileKindStable l2 st1 st2 hrun2 q hq with h | ⟨q', hpre, hne, hf⟩
  · exact .inl h
  · exact .inr (getAt_none_of_file_ancestor q' q _ hpre hne hf)

theorem fileEntriesStayFilesWitness :
    runLines initState [['a', '.', 'b']]
        = .ok ⟨.consFile ['a', '.', 'b'] .nil, [([], -1)]⟩ ∧
      (getAt [['a', '.', 'b']]
          (EVal.folder (.consFile ['a', '.', 'b'] (.consFile ['c', '.', 'd'] .nil)))
          = some .file ∨
        getAt [['a', '.', 'b']]
          (EVal.folder (.consFile ['a', '.', 'b'] (.consFile ['c', '.', 'd'] .nil)))
          = none) := by
  refine ⟨by rfl, ?_⟩
  exact fileEntriesStayFiles [['a', '.', 'b']] [['c', '.', 'd']]
    ⟨.consFile ['a', '.', 'b'] .nil, [([], -1)]⟩
    ⟨.consFile ['a', '.', 'b'] (.consFile ['c', '.', 'd'] .nil), [([], -1)]⟩
    [['a', '.', 'b']] (by rfl) (by rfl) (by rfl)

theorem getEntry_file_key (d : Entries Key) (k : Key)
    (hok : entriesOK d = true) (h : d.getEntry k = some .file) :
    k.contains '.' = true := by
  induction d with
  | nil => simp [Entries.getEntry] at h
  | consFile k0 r ih =>
    obtain ⟨h1, h2⟩ := Bool.and_eq_true_iff.mp hok
    by_cases h0 : k0 = k
    · subst h0; exact h1
    · exact ih h2 (by simpa [Entries.getEntry, h0] using h)
  | consFolder k0 d0 r ihd ihr =>
    obtain ⟨h1, h2⟩ := Bool.and_eq_true_iff.mp hok
    by_cases h0 : k0 = k
    · subst h0
      simp [Entries.getEntry] at h
    · exact ihr h2 (by simpa [Entries.getEntry, h0] using h)

theorem getEntry_folder_key (d : Entries Key) (k : Key) (d0 : Entries Key)
    (hok : entriesOK d = true) (h : d.getEntry k = some (.folder d0)) :
    k.contains '.' = false ∧ entriesOK d0 = true := by
  induction d with
  | nil => simp [Entries.getEntry] at h
  | consFile k0 r ih =>
    obtain ⟨h1, h2⟩ := Bool.and_eq_true_iff.mp hok
    by_cases h0 : k0 = k
    · subst h0; simp [Entries.getEntry] at h
    · exact ih h2 (by simpa [Entries.getEntry, h0] using h)
  | consFolder k0 d1 r ihd ihr =>
    obtain ⟨h1, h2⟩ := Bool.and_eq_true_iff.mp hok
    obtain ⟨h1a, h1b⟩ := Bool.and_eq_true_iff.mp h1
    by_cases h0 : k0 = k
    · subst h0
      have : d1 = d0 := by
        simpa [Entries.getEntry] using h
      subst this
      exact ⟨by simpa using h1a, h1b⟩
    · exact ihr h2 (by simpa [Entries.getEntry, h0] using h)

theorem entriesOK_setEntry (d : Entries Key) (k : Key) (v : EVal Key)
    (hok : entriesOK d = true) (hv : keyFits k v = true) :
    entriesOK (d.setEntry k v) = true := by
  induction d with
  | nil =>
    cases v with
    | file =>
      have hv' : '.' ∈ k := by simpa [keyFits] using hv
      simp [Entries.setEntry, Entries.consOf, entriesOK, hv']
    | folder d1 =>
      obtain ⟨hv1, hv2⟩ := Bool.and_eq_true_iff.mp hv
      have hv1' : '.' ∉ k := by simpa using hv1
      simp [Entries.setEntry, Entries.consOf, entriesOK, hv1', hv2]
  | consFile k0 r ih =>
    obtain ⟨h1, h2⟩ := Bool.and_eq_true_iff.mp hok
    have h1' : '.' ∈ k0 := by simpa using h1
    by_cases h0 : k0 = k
    · subst h0
      cases v with
      | file =>
        simp [Entries.setEntry, Entries.consOf, entriesOK, h1', h2]
      | folder d1 =>
        obtain ⟨hv1, hv2⟩ := Bool.and_eq_true_iff.mp hv
        have hv1' : '.' ∉ k0 := by simpa using hv1
        simp [Entries.setEntry, Entries.consOf, entriesOK, hv1', hv2, h2]
    · simp [Entries.setEntry, h0, entriesOK, h1', ih h2]
  | consFolder k0 d1 r ihd ihr =>
    obtain ⟨h1, h2⟩ := Bool.and_eq_true_iff.mp hok
    obtain ⟨h1a, h1b⟩ := Bool.and_eq_true_iff.mp h1
    have h1a' : '.' ∉ k0 := by simpa using h1a
    by_cases h0 : k0 = k
    · subst h0
      cases v with
      | file =>
        have hv' : '.' ∈ k0 := by simpa [keyFits] using hv
        exact absurd hv' h1a'
      | folder d2 =>
        obtain ⟨hv1, hv2⟩ := Bool.and_eq_true_iff.mp hv
        have hv1' : '.' ∉ k0 := by simpa using hv1
        simp [Entries.setEntry, Entries.consOf, entriesOK, hv1', hv2, h2]
    · simp [Entries.setEntry, h0, entriesOK, h1a', h1b, ihr h2]

theorem nodeOK_updAt (k : Key) (v : EVal Key) (hv : keyFits k v = true) :
    ∀ (p : List Key) (t t' : EVal Key),
      updAt (fun d => d.setEntry k v) p t = some t' →
      nodeOK t = true → nodeOK t' = true := by
  intro p
  induction p with
  | nil =>
    intro t t' h hok
    cases t with
    | file => simp [updAt] at h
    | folder d =>
      simp only [updAt, Option.some.injEq] at h
      subst h
      exact entriesOK_setEntry d k v hok hv
  | cons a p' ih =>
    intro t t' h hok
    cases t with
    | file => simp [updAt] at h
    | folder d =>
      cases hga : d.getEntry a with
      | none => simp [updAt, hga] at h
      | some n =>
        cases hup : updAt (fun d => d.setEntry k v) p' n with
        | none => simp [updAt, hga, hup] at h
        | some n' =>
          simp only [updAt, hga, hup, Option.some.injEq] at h
          subst h
          cases n with
          | file =>
            cases p' with
            | nil => simp [updAt] at hup
            | cons b p'' => simp [updAt] at hup
          | folder dn =>
            obtain ⟨ha1, ha2⟩ := getEntry_folder_key d a dn hok hga
            obtain ⟨dn', hdn'⟩ := updAt_folder _ p' dn n' hup
            subst hdn'
            have hok' : entriesOK dn' = true := ih (.folder dn) _ hup ha2
            have ha1' : '.' ∉ a := by simpa using ha1
            refine entriesOK_setEntry d a (.folder dn') hok ?_
            simp [keyFits, ha1', hok']

theorem file_label_has_dot (c : Line) (h : ¬ isFolderLabel c = true) :
    c.contains '.' = true := by
  rw [Bool.not_eq_true, isFolderLabel, Bool.or_eq_false_iff] at h
  simpa using h.2

theorem getAt_none_mono {α : Type} [DecidableEq α] (p q : List α)
    (t : EVal α) (hpre : p <+: q) (h : getAt p t = none) :
    getAt q t = none := by
  obtain ⟨r, rfl⟩ := hpre
  rw [getAt_append, h]

theorem getAt_append_singleton {α : Type} [DecidableEq α] (p : List α)
    (k : α) (t : EVal α) (d : Entries α)
    (h : getAt p t = some (.folder d)) :
    getAt (p ++ [k]) t = d.getEntry k := by
  rw [getAt_append, h]
  show getAt [k] (.folder d) = d.getEntry k
  rw [getAt]
  cases d.getEntry k <;> rfl

theorem folder_at_prefix {α : Type} [DecidableEq α] (pk q : List α)
    (t : EVal α) (de : Entries α) (hpre : pk <+: q)
    (hq : getAt q t = some (.folder de)) :
    ∃ dd, getAt pk t = some (.folder dd) := by
  cases hv : getAt pk t with
  | none =>
    rw [getAt_none_mono pk q t hpre hv] at hq
    simp at hq
  | some v =>
    cases v with
    | folder dd => exact ⟨dd, rfl⟩
    | file =>
      by_cases he : pk = q
      · subst he
        rw [hv] at hq
        simp at hq
      · rw [getAt_none_of_file_ancestor pk q t hpre he hv] at hq
        simp at hq

theorem entriesOK_getAt :
    ∀ (p : List Key) (t : EVal Key) (d : Entries Key),
      getAt p t = some (.folder d) → nodeOK t = true → entriesOK d = true := by
  intro p
  induction p with
  | nil =>
    intro t d h hok
    rw [getAt] at h
    injection h with h'
    subst h'
    simpa [nodeOK] using hok
  | cons a p' ih =>
    intro t d h hok
    cases t with
    | file => simp [getAt] at h
    | folder d0 =>
      cases hga : d0.getEntry a with
      | none => simp [getAt, hga] at h
      | some n =>
        simp only [getAt, hga] at h
        cases n with
        | file =>
          cases p' with
          | nil => simp [getAt] at h
          | cons b p'' => simp [getAt] at h
        | folder dn =>
          obtain ⟨_, hdn⟩ := getEntry_folder_key d0 a dn hok hga
          exact ih (.folder dn) d h hdn

theorem lineStep_total (st : PState) (line : Line)
    (hinv : parserInv st) (hsafe : safeLabel line) :
    ∃ st', lineStep st line = .ok st' ∧ parserInv st' := by
  obtain ⟨hbot, hpaths, hok⟩ := hinv
  unfold lineStep
  by_cases hc : cleanLine line = []
  · rw [if_pos hc]
    exact ⟨st, rfl, hbot, hpaths, hok⟩
  · rw [if_neg hc]
    obtain ⟨hne, hlast⟩ :=
      dropWhile_getLast
        (fun e : List Key × Int =>
          decide (((lineDepth line : Nat) : Int) ≤ e.2))
        ([], -1) st.stack hbot (sentinel_fails_pop line)
    cases hpop : popToParent st.stack ((lineDepth line : Nat) : Int) with
    | nil => exact absurd hpop hne
    | cons hd tl =>
      obtain ⟨p, pd⟩ := hd
      have hlast' : ((p, pd) :: tl).getLast? = some ([], -1) := by
        rw [← hpop]; exact hlast
      have hsubstack : ∀ e, e ∈ (p, pd) :: tl → e ∈ st.stack := by
        intro e he
        have hsub : List.Sublist (popToParent st.stack
            ((lineDepth line : Nat) : Int)) st.stack :=
          List.dropWhile_sublist _
        rw [hpop] at hsub
        exact hsub.subset he
      obtain ⟨d, hget⟩ := hpaths (p, pd) (hsubstack _ (List.mem_cons_self _ _))
      have hokd : entriesOK d = true := entriesOK_getAt p (.folder st.root) d hget hok
      by_cases hf : isFolderLabel (cleanLine line) = true
      · have hnd : (rstripSlashes (cleanLine line)).contains '.' = false :=
          hsafe hf
        by_cases hk :
            (d.getEntry (rstripSlashes (cleanLine line))).isSome = true
        · refine ⟨⟨st.root,
              (p ++ [rstripSlashes (cleanLine line)],
                ((lineDepth line : Nat) : Int)) :: (p, pd) :: tl⟩,
              ?_, ?_, ?_, hok⟩
          · simp only [hpop, hget]
            rw [if_pos hf, if_pos hk]
          · show (_ :: (p, pd) :: tl).getLast? = some ([], -1)
            rw [List.getLast?_cons_cons]
            exact hlast'
          · intro e he
            rcases List.mem_cons.mp he with he1 | he2
            · subst he1
              obtain ⟨v, hv⟩ := Option.isSome_iff_exists.mp hk
              cases v with
              | file =>
                have := getEntry_file_key d _ hokd hv
                rw [hnd] at this
                cases this
              | folder d0 =>
                exact ⟨d0, by
                  rw [getAt_append_singleton p _ _ d hget, hv]⟩
            · exact hpaths e (hsubstack e he2)
        · have hkn : d.getEntry (rstripSlashes (cleanLine line)) = none :=
            Option.not_isSome_iff_eq_none.mp hk
          have hupd := insertAt_spec st.root p
            (rstripSlashes (cleanLine line)) (.folder .nil) d hget
          refine ⟨⟨insertAt st.root p (rstripSlashes (cleanLine line))
                (.folder .nil),
              (p ++ [rstripSlashes (cleanLine line)],
                ((lineDepth line : Nat) : Int)) :: (p, pd) :: tl⟩,
              ?_, ?_, ?_, ?_⟩
          · simp only [hpop, hget]
            rw [if_pos hf, if_neg hk]
          · show (_ :: (p, pd) :: tl).getLast? = some ([], -1)
            rw [List.getLast?_cons_cons]
            exact hlast'
          · intro e he
            rcases List.mem_cons.mp he with he1 | he2
            · subst he1
              exact ⟨.nil, getAt_updAt_below _ _ p _ _ hupd []⟩
            · obtain ⟨de, hde⟩ := hpaths e (hsubstack e he2)
              by_cases h1 : e.1 <+: p
              · exact (getAt_updAt_chain _ _ p _ _ hupd e.1 h1).2
              · by_cases h2 : (p ++ [rstripSlashes (cleanLine line)]) <+: e.1
                · exfalso
                  obtain ⟨dd, hdd⟩ := folder_at_prefix _ e.1 _ de h2 hde
                  rw [getAt_append_singleton p _ _ d hget, hkn] at hdd
                  cases hdd
                · exact ⟨de, by
                    rw [getAt_updAt_off _ _ p _ _ hupd e.1 h1 h2]; exact hde⟩
          · have hfit : keyFits (rstripSlashes (cleanLine line))
                (.folder .nil) = true := by
              have hnd' : '.' ∉ rstripSlashes (cleanLine line) := by
                simpa using hnd
              simp [keyFits, entriesOK, hnd']
            exact nodeOK_updAt _ _ hfit p _ _ hupd hok
      · have hdot : (cleanLine line).contains '.' = true :=
          file_label_has_dot _ hf
        have hupd := insertAt_spec st.root p (cleanLine line) .file d hget
        refine ⟨⟨insertAt st.root p (cleanLine line) .file, (p, pd) :: tl⟩,
            ?_, hlast', ?_, ?_⟩
        · simp only [hpop, hget]
          rw [if_neg hf]
        · intro e he
          obtain ⟨de, hde⟩ := hpaths e (hsubstack e he)
          by_cases h1 : e.1 <+: p
          · exact (getAt_updAt_chain _ _ p _ _ hupd e.1 h1).2
          · by_cases h2 : (p ++ [cleanLine line]) <+: e.1
            · exfalso
              obtain ⟨dd, hdd⟩ := folder_at_prefix _ e.1 _ de h2 hde
              rw [getAt_append_singleton p _ _ d hget] at hdd
              obtain ⟨hfz, _⟩ := getEntry_folder_key d _ dd hokd hdd
              rw [hdot] at hfz
              cases hfz
            · exact ⟨de, by
                rw [getAt_updAt_off _ _ p _ _ hupd e.1 h1 h2]; exact hde⟩
        · exact nodeOK_updAt _ _ (by simpa [keyFits] using hdot) p _ _ hupd hok

theorem runLines_total :
    ∀ (lines : List Line) (st : PState), parserInv st →
      (∀ l ∈ lines, safeLabel l) →
      ∃ st', runLines st lines = .ok st' ∧ parserInv st' := by
  intro lines
  induction lines with
  | nil => intro st hinv _; exact ⟨st, rfl, hinv⟩
  | cons l ls ih =>
    intro st hinv hsafe
    obtain ⟨st1, hstep, hinv1⟩ :=
      lineStep_total st l hinv (hsafe l (List.mem_cons_self _ _))
    obtain ⟨st', hrun, hinv'⟩ :=
      ih st1 hinv1 (fun l' hl' => hsafe l' (List.mem_cons_of_mem _ hl'))
    exact ⟨st', by simp only [runLines, hstep]; exact hrun, hinv'⟩

theorem initState_inv : parserInv initState := by
  refine ⟨rfl, ?_, rfl⟩
  intro e he
  simp only [initState, List.mem_singleton] at he
  subst he
  exact ⟨.nil, rfl⟩

/-- C8 (amended): the parser never surfaces an error for any input in which
every folder-classified label, after trailing slashes are removed, contains
no `'.'` — such a label can never collide with an existing file entry of the
same parent, which is the one situation (see the counterexample) in which
the code raises a `TypeError`.  All indentation and classification
ambiguities are resolved internally. -/
theorem parseTotalOnSafeLabels (lines : List Line)
    (h : ∀ l ∈ lines, safeLabel l) :
    ∃ d, parse_tree_structure_to_dict lines = .ok d := by
  obtain ⟨st', hrun, _⟩ := runLines_total lines initState initState_inv h
  refine ⟨st'.root, ?_⟩
  rw [parse_tree_structure_to_dict, hrun]
  rfl

theorem parseTotalOnSafeLabelsWitness :
    (∀ l ∈ [['d', 'o', 'c', 's', '/'], ['\t', 'a', '.', 't', 'x', 't']],
        safeLabel l) ∧
      ∃ d, parse_tree_structure_to_dict
          [['d', 'o', 'c', 's', '/'], ['\t', 'a', '.', 't', 'x', 't']]
        = .ok d := by
  have hsafe : ∀ l ∈ [['d', 'o', 'c', 's', '/'], ['\t', 'a', '.', 't', 'x', 't']],
      safeLabel l := by
    intro l hl
    unfold safeLabel
    fin_cases hl <;> decide
  exact ⟨hsafe, parseTotalOnSafeLabels _ hsafe⟩

theorem makedirs_isSome (fs : FS) (p q : List String)
    (h : ((fs q).isSome) = true) : ((makedirs fs p q).isSome) = true := by
  unfold makedirs
  split
  · rfl
  · exact h

theorem writeEmpty_isSome (fs : FS) (p q : List String)
    (h : ((fs q).isSome) = true) : ((writeEmpty fs p q).isSome) = true := by
  unfold writeEmpty
  split
  · rfl
  · exact h

theorem matEntries_exists_mono (env : Env) :
    ∀ (s : Entries String) (fs : FS) (base : List String) (q : List String),
      (fs q).isSome = true →
      (((matEntries env fs base s).1) q).isSome = true := by
  intro s
  induction s with
  | nil => intro fs base q h; exact h
  | consFile k rest ih =>
    intro fs base q h
    simp only [matEntries]
    by_cases hc : (fsExists fs (base ++ [k])
        && !env.overwriteDecision (base ++ [k])) = true
    · rw [if_pos hc]
      exact ih fs base q h
    · rw [if_neg hc]
      cases env.openRes (base ++ [k]) with
      | success => exact ih _ base q (writeEmpty_isSome fs _ q h)
      | permDenied => exact ih fs base q h
      | osErr => exact ih fs base q h
  | consFolder k ch rest ihch ihrest =>
    intro fs base q h
    simp only [matEntries]
    by_cases hex : fsExists fs (base ++ [k]) = true
    · rw [if_pos hex]
      exact ihrest _ base q (ihch fs _ q h)
    · rw [if_neg hex]
      by_cases hmk : env.mkdirFails (base ++ [k]) = true
      · rw [if_pos hmk]
        exact ihrest fs base q h
      · rw [if_neg hmk]
        exact ihrest _ base q (ihch _ _ q (makedirs_isSome fs _ q h))

/-- Counterexample to C7: materializing `{"A": {"B": null}}` into an empty
base path emits the two per-action lines but TWO "completed" lines, not
one — main.py line 55 logs "completed" at the end of every call frame, and
the recursive call for folder `A` (line 39) is such a frame. -/
theorem completionLoggedPerFrame :
    (create_project_structure envOk emptyFS []
        (.consFolder "A" (.consFile "B" .nil) .nil)).2
      = [.createdFolder ["A"], .createdFile ["A", "B"],
          .completed, .completed] ∧
      (create_project_structure envOk emptyFS []
          (.consFolder "A" (.consFile "B" .nil) .nil)).2.count
        LogLine.completed ≠ 1 := by
  exact ⟨by rfl, by decide⟩

/-- C7 (amended): materializing `{"A": {"B": null}}` into an empty base path
creates folder `A` and then empty file `A/B`, in that order, and emits
exactly two per-action log lines plus one "completed" line per call frame —
two in total here: one when the recursive call for `A` returns and one when
the top-level call returns. -/
theorem materializeExampleRun :
    (create_project_structure envOk emptyFS []
        (.consFolder "A" (.consFile "B" .nil) .nil)).1 ["A"]
        = some FsEntry.dir ∧
      (create_project_structure envOk emptyFS []
          (.consFolder "A" (.consFile "B" .nil) .nil)).1 ["A", "B"]
        = some (FsEntry.file "") ∧
      (create_project_structure envOk emptyFS []
          (.consFolder "A" (.consFile "B" .nil) .nil)).2
        = [.createdFolder ["A"], .createdFile ["A", "B"],
            .completed, .completed] := by
  exact ⟨by rfl, by rfl, by rfl⟩

/-- Counterexample to C4: in the appv2.py/appv3.py materializer
(appv2.py line 77), the recursion into a folder's children is OUTSIDE the
creation branch, so after `os.makedirs("A")` fails the child file `A/B` is
still attempted (and logged), instead of the whole subtree being skipped. -/
theorem appv2RecursesIntoFailedFolder :
    (appv2MatEntries envMkdirAFails emptyFS []
        (.consFolder "A" (.consFile "B" .nil) .nil)).2
      = [.folderError ["A"], .fileError ["A", "B"]] := by rfl

/-- C4 (amended), for main.py's materializer: an existing folder is not an
error — the call proceeds directly to recursing into it and then to the
siblings; an absent folder whose creation succeeds exists afterwards
together with all its missing ancestors; and when creation fails the error
is logged, the subtree is not entered (`continue`, main.py line 38), and
processing continues with the remaining siblings.  (In appv2.py/appv3.py
the recursion happens even after a creation failure; see the
counterexample.) -/
theorem folderMaterialization (env : Env) (fs : FS) (base : List String)
    (k : String) (ch rest : Entries String) :
    ((fs (base ++ [k])).isSome = true →
      matEntries env fs base (.consFolder k ch rest)
        = ((matEntries env
              (matEntries env fs (base ++ [k]) ch).1 base rest).1,
            ((matEntries env fs (base ++ [k]) ch).2 ++ [LogLine.completed])
              ++ (matEntries env
                    (matEntries env fs (base ++ [k]) ch).1 base rest).2)) ∧
    ((fs (base ++ [k])).isSome = false →
      env.mkdirFails (base ++ [k]) = false →
      ∀ q, q ≠ [] → q <+: (base ++ [k]) →
        (((matEntries env fs base (.consFolder k ch rest)).1) q).isSome
          = true) ∧
    ((fs (base ++ [k])).isSome = false →
      env.mkdirFails (base ++ [k]) = true →
      matEntries env fs base (.consFolder k ch rest)
        = ((matEntries env fs base rest).1,
            LogLine.folderError (base ++ [k])
              :: (matEntries env fs base rest).2)) := by
  refine ⟨?_, ?_, ?_⟩
  · intro hex
    simp only [matEntries, fsExists]
    rw [if_pos hex]
  · intro hex hmk q hq1 hq2
    simp only [matEntries, fsExists]
    rw [if_neg (by rw [hex]; exact Bool.false_ne_true),
      if_neg (by rw [hmk]; exact Bool.false_ne_true)]
    refine matEntries_exists_mono env rest _ base q
      (matEntries_exists_mono env ch _ _ q ?_)
    simp only [makedirs]
    by_cases hv : fs q = none
    · rw [if_pos ⟨hq1, hq2, hv⟩]
      rfl
    · rw [if_neg (fun hcon => hv hcon.2.2)]
      cases hfs : fs q with
      | none => exact absurd hfs hv
      | some e => rfl
  · intro hex hmk
    simp only [matEntries, fsExists]
    rw [if_neg (by rw [hex]; exact Bool.false_ne_true), if_pos hmk]
    rfl

theorem folderMaterializationWitness :
    (emptyFS ["A"]).isSome = false ∧
      envOk.mkdirFails ["A"] = false ∧
      ((matEntries envOk emptyFS []
          (.consFolder "A" (.consFile "B" .nil) .nil)).1 ["A"]).isSome
        = true := by
  refine ⟨rfl, rfl, ?_⟩
  exact (folderMaterialization envOk emptyFS [] "A"
      (.consFile "B" .nil) .nil).2.1 rfl rfl ["A"] (by decide)
    (List.prefix_refl _)

/-- C5: for a file entry, main.py lines 40-54: an existing target with a
declined overwrite is logged as a skip and nothing is written; otherwise
(decision accepted or target absent) the open is attempted — on success an
empty file is written (truncating any content) and logged, a
`PermissionError` and any other `OSError` are logged with distinct lines
and nothing is written — and in every case processing continues with the
remaining siblings. -/
theorem fileMaterialization (env : Env) (fs : FS) (base : List String)
    (k : String) (rest : Entries String) :
    ((fs (base ++ [k])).isSome = true →
        env.overwriteDecision (base ++ [k]) = false →
      matEntries env fs base (.consFile k rest)
        = ((matEntries env fs base rest).1,
            LogLine.skippedFile (base ++ [k])
              :: (matEntries env fs base rest).2)) ∧
    (((fs (base ++ [k])).isSome = false ∨
        env.overwriteDecision (base ++ [k]) = true) →
      (env.openRes (base ++ [k]) = .success →
        matEntries env fs base (.consFile k rest)
          = ((matEntries env (writeEmpty fs (base ++ [k])) base rest).1,
              LogLine.createdFile (base ++ [k])
                :: (matEntries env
                      (writeEmpty fs (base ++ [k])) base rest).2)
          ∧ writeEmpty fs (base ++ [k]) (base ++ [k])
              = some (FsEntry.file "")) ∧
      (env.openRes (base ++ [k]) = .permDenied →
        matEntries env fs base (.consFile k rest)
          = ((matEntries env fs base rest).1,
              LogLine.permissionDenied (base ++ [k])
                :: (matEntries env fs base rest).2)) ∧
      (env.openRes (base ++ [k]) = .osErr →
        matEntries env fs base (.consFile k rest)
          = ((matEntries env fs base rest).1,
              LogLine.osError (base ++ [k])
                :: (matEntries env fs base rest).2))) := by
  constructor
  · intro hex hdec
    simp only [matEntries, fsExists]
    rw [if_pos (by rw [hex, hdec]; rfl)]
    rfl
  · intro hor
    have hcond : (fsExists fs (base ++ [k])
        && !env.overwriteDecision (base ++ [k])) = false := by
      rcases hor with h | h
      · simp [fsExists, h]
      · simp [h]
    refine ⟨?_, ?_, ?_⟩ <;> intro hopen <;>
      simp only [matEntries, fsExists] at * <;>
      rw [if_neg (by rw [hcond]; exact Bool.false_ne_true), hopen]
    · exact ⟨rfl, by simp [writeEmpty]⟩
    · rfl
    · rfl

theorem fileMaterializationWitness :
    ((writeEmpty emptyFS ["a.txt"] ["a.txt"]).isSome = true ∧
        envOk.overwriteDecision ["a.txt"] = false) ∧
      matEntries envOk (writeEmpty emptyFS ["a.txt"]) [] (.consFile "a.txt" .nil)
        = ((matEntries envOk (writeEmpty emptyFS ["a.txt"]) [] .nil).1,
            LogLine.skippedFile ["a.txt"]
              :: (matEntries envOk (writeEmpty emptyFS ["a.txt"]) [] .nil).2) := by
  refine ⟨⟨by decide, rfl⟩, ?_⟩
  exact (fileMaterialization envOk (writeEmpty emptyFS ["a.txt"]) [] "a.txt"
    .nil).1 (by decide) rfl

/-! ## Idempotence of materialization under declined overwrites (C6) -/

theorem prefix_snoc {α : Type} (q l : List α) (x : α)
    (h : q <+: l ++ [x]) : q <+: l ∨ q = l ++ [x] := by
  rcases Nat.lt_or_ge q.length (l ++ [x]).length with hlt | hge
  · left
    have hlen : q.length ≤ l.length := by
      simp only [List.length_append, List.length_singleton] at hlt
      omega
    rw [List.prefix_iff_eq_take] at h
    rw [List.take_append_of_le_length hlen] at h
    rw [List.prefix_iff_eq_take]
    exact h
  · right
    exact h.eq_of_length (le_antisymm h.length_le hge)

theorem prefix_eq_of_length {α : Type} (l1 l2 q : List α)
    (h1 : l1 <+: q) (h2 : l2 <+: q) (h : l1.length = l2.length) :
    l1 = l2 := by
  rw [List.prefix_iff_eq_take] at h1 h2
  rw [h1, h2, h]

theorem matEntries_preserves_entry (env : Env)
    (hdec : ∀ p, env.overwriteDecision p = false) :
    ∀ (s : Entries String) (fs : FS) (base : List String) (q : List String)
      (e : FsEntry),
      fs q = some e → (matEntries env fs base s).1 q = some e := by
  intro s
  induction s with
  | nil => intro fs base q e h; exact h
  | consFile k rest ih =>
    intro fs base q e h
    simp only [matEntries]
    by_cases hex : fsExists fs (base ++ [k]) = true
    · rw [if_pos (by rw [hex, hdec]; rfl)]
      exact ih fs base q e h
    · have hex' : fsExists fs (base ++ [k]) = false := by simpa using hex
      rw [if_neg (by rw [hex', hdec]; exact Bool.false_ne_true)]
      cases env.openRes (base ++ [k]) with
      | success =>
        refine ih _ base q e ?_
        simp only [writeEmpty]
        rw [if_neg ?_]
        · exact h
        · intro he
          rw [he] at h
          simp [fsExists, h] at hex' 
      | permDenied => exact ih fs base q e h
      | osErr => exact ih fs base q e h
  | consFolder k ch rest ihch ihrest =>
    intro fs base q e h
    simp only [matEntries]
    by_cases hex : fsExists fs (base ++ [k]) = true
    · rw [if_pos hex]
      exact ihrest _ base q e (ihch fs _ q e h)
    · rw [if_neg hex]
      by_cases hmk : env.mkdirFails (base ++ [k]) = true
      · rw [if_pos hmk]
        exact ihrest fs base q e h
      · rw [if_neg hmk]
        refine ihrest _ base q e (ihch _ _ q e ?_)
        simp only [makedirs]
        rw [if_neg (fun hcon => by
          rw [h] at hcon
          exact Option.noConfusion hcon.2.2)]
        exact h

theorem matEntries_writes_localized (env : Env) :
    ∀ (s : Entries String) (fs : FS) (base : List String) (q : List String),
      (matEntries env fs base s).1 q ≠ fs q →
      ∃ k, k ∈ Entries.keys s ∧
        (q <+: (base ++ [k]) ∨ (base ++ [k]) <+: q) := by
  intro s
  induction s with
  | nil => intro fs base q h; exact absurd rfl h
  | consFile k rest ih =>
    intro fs base q h
    simp only [matEntries] at h
    simp only [Entries.keys]
    by_cases hc : (fsExists fs (base ++ [k])
        && !env.overwriteDecision (base ++ [k])) = true
    · rw [if_pos hc] at h
      obtain ⟨k', hk', hor⟩ := ih fs base q h
      exact ⟨k', List.mem_cons_of_mem _ hk', hor⟩
    · rw [if_neg hc] at h
      cases hopen : env.openRes (base ++ [k]) with
      | success =>
        rw [hopen] at h
        by_cases hmid : writeEmpty fs (base ++ [k]) q = fs q
        · obtain ⟨k', hk', hor⟩ := ih (writeEmpty fs (base ++ [k])) base q
            (fun hcon => h (hcon.trans hmid))
          exact ⟨k', List.mem_cons_of_mem _ hk', hor⟩
        · have hq : q = base ++ [k] := by
            by_contra hne
            apply hmid
            simp only [writeEmpty]
            rw [if_neg hne]
          exact ⟨k, List.mem_cons_self _ _,
            .inl (hq ▸ List.prefix_refl _)⟩
      | permDenied =>
        rw [hopen] at h
        obtain ⟨k', hk', hor⟩ := ih fs base q h
        exact ⟨k', List.mem_cons_of_mem _ hk', hor⟩
      | osErr =>
        rw [hopen] at h
        obtain ⟨k', hk', hor⟩ := ih fs base q h
        exact ⟨k', List.mem_cons_of_mem _ hk', hor⟩
  | consFolder k ch rest ihch ihrest =>
    intro fs base q h
    simp only [matEntries] at h
    simp only [Entries.keys]
    have lift : ∀ k'', (q <+: ((base ++ [k]) ++ [k'']) ∨
        ((base ++ [k]) ++ [k'']) <+: q) →
        q <+: (base ++ [k]) ∨ (base ++ [k]) <+: q := by
      intro k'' hor
      rcases hor with h1 | h1
      · rcases prefix_snoc q (base ++ [k]) k'' h1 with h2 | h2
        · exact .inl h2
        · exact .inr (h2 ▸ List.prefix_append _ _)
      · exact .inr ((List.prefix_append _ _).trans h1)
    by_cases hex : fsExists fs (base ++ [k]) = true
    · rw [if_pos hex] at h
      by_cases hmid : (matEntries env fs (base ++ [k]) ch).1 q = fs q
      · obtain ⟨k', hk', hor⟩ :=
          ihrest ((matEntries env fs (base ++ [k]) ch).1) base q
            (fun hcon => h (hcon.trans hmid))
        exact ⟨k', List.mem_cons_of_mem _ hk', hor⟩
      · obtain ⟨k'', hk'', hor⟩ := ihch fs (base ++ [k]) q hmid
        exact ⟨k, List.mem_cons_self _ _, lift k'' hor⟩
    · rw [if_neg hex] at h
      by_cases hmk : env.mkdirFails (base ++ [k]) = true
      · rw [if_pos hmk] at h
        obtain ⟨k', hk', hor⟩ := ihrest fs base q h
        exact ⟨k', List.mem_cons_of_mem _ hk', hor⟩
      · rw [if_neg hmk] at h
        by_cases hmid :
            (matEntries env (makedirs fs (base ++ [k]))
              (base ++ [k]) ch).1 q = fs q
        · obtain ⟨k', hk', hor⟩ :=
            ihrest ((matEntries env (makedirs fs (base ++ [k]))
                (base ++ [k]) ch).1) base q
              (fun hcon => h (hcon.trans hmid))
          exact ⟨k', List.mem_cons_of_mem _ hk', hor⟩
        · by_cases hmk2 : makedirs fs (base ++ [k]) q = fs q
          · obtain ⟨k'', hk'', hor⟩ := ihch _ (base ++ [k]) q
              (fun hcon => hmid (hcon.trans hmk2))
            exact ⟨k, List.mem_cons_self _ _, lift k'' hor⟩
          · have hq : q <+: base ++ [k] := by
              simp only [makedirs] at hmk2
              by_cases hcond : q ≠ [] ∧ q <+: (base ++ [k]) ∧ fs q = none
              · exact hcond.2.1
              · rw [if_neg hcond] at hmk2
                exact absurd rfl hmk2
            exact ⟨k, List.mem_cons_self _ _, .inl hq⟩

theorem matEntries_untouched (env : Env) (s : Entries String) (fs : FS)
    (base : List String) (k : String) (hk : ¬ k ∈ Entries.keys s)
    (q : List String) (hq : (base ++ [k]) <+: q) :
    (matEntries env fs base s).1 q = fs q := by
  by_contra h
  obtain ⟨k', hk', hor⟩ := matEntries_writes_localized env s fs base q h
  have hne : k ≠ k' := fun he => hk (he ▸ hk')
  rcases hor with h1 | h1
  · have hlen1 : q.length ≤ base.length + 1 := by
      have := h1.length_le
      simpa using this
    have hlen2 : base.length + 1 ≤ q.length := by
      have := hq.length_le
      simpa using this
    have hq1 : base ++ [k] = q := hq.eq_of_length (by simp; omega)
    have hq2 : q = base ++ [k'] := h1.eq_of_length (by simp; omega)
    rw [← hq1] at hq2
    exact hne (by simpa using List.append_cancel_left hq2)
  · have heq : base ++ [k] = base ++ [k'] :=
      prefix_eq_of_length _ _ q hq h1 (by simp)
    exact hne (by simpa using List.append_cancel_left heq)

theorem length_ne_base (base : List String) (k : String) (q : List String)
    (hq : (base ++ [k]) <+: q) : q ≠ base := by
  intro he
  have hl := hq.length_le
  rw [he] at hl
  simp at hl

theorem matEntries_idem (env : Env)
    (hdec : ∀ p, env.overwriteDecision p = false) :
    ∀ (s : Entries String) (fs g : FS) (base : List String),
      keysOk s = true →
      (∀ q e, (matEntries env fs base s).1 q = some e → g q = some e) →
      (∀ q, base <+: q → q ≠ base →
        (matEntries env fs base s).1 q = none → g q = none) →
      (matEntries env g base s).1 = g := by
  intro s
  induction s with
  | nil => intro fs g base _ _ _; rfl
  | consFile k rest ih =>
    intro fs g base hkeys hs hn
    have hkr : keysOk rest = true := (Bool.and_eq_true_iff.mp hkeys).2
    have hcond : ∀ h : FS,
        (fsExists h (base ++ [k]) && !env.overwriteDecision (base ++ [k]))
          = fsExists h (base ++ [k]) := by
      intro h
      rw [hdec]
      cases fsExists h (base ++ [k]) <;> rfl
    simp only [matEntries, hcond] at hs hn ⊢
    by_cases hex : fsExists fs (base ++ [k]) = true
    · rw [if_pos hex] at hs hn
      obtain ⟨e0, he0⟩ : ∃ e0, fs (base ++ [k]) = some e0 := by
        cases hfp : fs (base ++ [k]) with
        | none => exfalso; simp [fsExists, hfp] at hex
        | some e0 => exact ⟨e0, rfl⟩
      have hg : g (base ++ [k]) = some e0 :=
        hs _ e0 (matEntries_preserves_entry env hdec rest fs base _ e0 he0)
      rw [if_pos (by simp [fsExists, hg])]
      exact ih fs g base hkr hs hn
    · rw [if_neg hex] at hs hn
      cases hopen : env.openRes (base ++ [k]) with
      | success =>
        rw [hopen] at hs hn
        have hg : g (base ++ [k]) = some (FsEntry.file "") := by
          refine hs _ _ (matEntries_preserves_entry env hdec rest _ base _ _ ?_)
          simp [writeEmpty]
        rw [if_pos (by simp [fsExists, hg])]
        exact ih (writeEmpty fs (base ++ [k])) g base hkr hs hn
      | permDenied =>
        rw [hopen] at hs hn
        by_cases hgex : fsExists g (base ++ [k]) = true
        · rw [if_pos hgex]
          exact ih fs g base hkr hs hn
        · rw [if_neg hgex]
          exact ih fs g base hkr hs hn
      | osErr =>
        rw [hopen] at hs hn
        by_cases hgex : fsExists g (base ++ [k]) = true
        · rw [if_pos hgex]
          exact ih fs g base hkr hs hn
        · rw [if_neg hgex]
          exact ih fs g base hkr hs hn
  | consFolder k ch rest ihch ihrest =>
    intro fs g base hkeys hs hn
    obtain ⟨hk1, hkr⟩ := Bool.and_eq_true_iff.mp hkeys
    obtain ⟨hknotin', hkch⟩ := Bool.and_eq_true_iff.mp hk1
    have hknotin : ¬ k ∈ Entries.keys rest := by simpa using hknotin'
    simp only [matEntries] at hs hn ⊢
    by_cases hex : fsExists fs (base ++ [k]) = true
    · rw [if_pos hex] at hs hn
      obtain ⟨e0, he0⟩ : ∃ e0, fs (base ++ [k]) = some e0 := by
        cases hfp : fs (base ++ [k]) with
        | none => exfalso; simp [fsExists, hfp] at hex
        | some e0 => exact ⟨e0, rfl⟩
      have hg : g (base ++ [k]) = some e0 := by
        refine hs _ e0 (matEntries_preserves_entry env hdec rest _ base _ e0
          (matEntries_preserves_entry env hdec ch fs _ _ e0 he0))
      rw [if_pos (by simp [fsExists, hg])]
      have hsch : ∀ q e,
          (matEntries env fs (base ++ [k]) ch).1 q = some e → g q = some e :=
        fun q e hq =>
          hs q e (matEntries_preserves_entry env hdec rest _ base q e hq)
      have hnch : ∀ q, (base ++ [k]) <+: q → q ≠ (base ++ [k]) →
          (matEntries env fs (base ++ [k]) ch).1 q = none → g q = none := by
        intro q hq hqne hnone
        refine hn q ((List.prefix_append base [k]).trans hq)
          (length_ne_base base k q hq) ?_
        rw [matEntries_untouched env rest _ base k hknotin q hq]
        exact hnone
      have hch : (matEntries env g (base ++ [k]) ch).1 = g :=
        ihch fs g (base ++ [k]) hkch hsch hnch
      show (matEntries env (matEntries env g (base ++ [k]) ch).1 base rest).1
          = g
      rw [hch]
      exact ihrest ((matEntries env fs (base ++ [k]) ch).1) g base hkr hs hn
    · rw [if_neg hex] at hs hn
      have hex' : fs (base ++ [k]) = none := by
        cases hfp : fs (base ++ [k]) with
        | none => rfl
        | some e0 => exfalso; exact hex (by simp [fsExists, hfp])
      by_cases hmk : env.mkdirFails (base ++ [k]) = true
      · rw [if_pos hmk] at hs hn
        have hg : g (base ++ [k]) = none := by
          refine hn (base ++ [k]) (List.prefix_append base [k])
            (length_ne_base base k _ (List.prefix_refl _)) ?_
          rw [matEntries_untouched env rest fs base k hknotin _
            (List.prefix_refl _)]
          exact hex'
        rw [if_neg (by simp [fsExists, hg]), if_pos hmk]
        exact ihrest fs g base hkr hs hn
      · rw [if_neg hmk] at hs hn
        have hdir : makedirs fs (base ++ [k]) (base ++ [k])
            = some FsEntry.dir := by
          simp only [makedirs]
          rw [if_pos ⟨by simp, List.prefix_refl _, hex'⟩]
        have hg : g (base ++ [k]) = some FsEntry.dir := by
          refine hs _ _ (matEntries_preserves_entry env hdec rest _ base _ _
            (matEntries_preserves_entry env hdec ch _ _ _ _ hdir))
        rw [if_pos (by simp [fsExists, hg])]
        have hsch : ∀ q e,
            (matEntries env (makedirs fs (base ++ [k]))
              (base ++ [k]) ch).1 q = some e → g q = some e :=
          fun q e hq =>
            hs q e (matEntries_preserves_entry env hdec rest _ base q e hq)
        have hnch : ∀ q, (base ++ [k]) <+: q → q ≠ (base ++ [k]) →
            (matEntries env (makedirs fs (base ++ [k]))
              (base ++ [k]) ch).1 q = none → g q = none := by
          intro q hq hqne hnone
          refine hn q ((List.prefix_append base [k]).trans hq)
            (length_ne_base base k q hq) ?_
          rw [matEntries_untouched env rest _ base k hknotin q hq]
          exact hnone
        have hch : (matEntries env g (base ++ [k]) ch).1 = g :=
          ihch (makedirs fs (base ++ [k])) g (base ++ [k]) hkch hsch hnch
        show (matEntries env (matEntries env g (base ++ [k]) ch).1
            base rest).1 = g
        rw [hch]
        exact ihrest ((matEntries env (makedirs fs (base ++ [k]))
          (base ++ [k]) ch).1) g base hkr hs hn

/-- C6: under a fixed environment with every overwrite prompt declined,
re-running `create_project_structure` over the filesystem produced by a
first run performs no filesystem writes: the filesystem after the second
run equals the filesystem after the first (for any hierarchy, whose sibling
names are unique as in every Python dict, and any base path). -/
theorem materializeIdempotent (env : Env) (fs : FS) (base : List String)
    (s : Entries String)
    (hdec : ∀ p, env.overwriteDecision p = false)
    (hkeys : keysOk s = true) :
    (create_project_structure env
        (create_project_structure env fs base s).1 base s).1
      = (create_project_structure env fs base s).1 := by
  show (matEntries env (matEntries env fs base s).1 base s).1
      = (matEntries env fs base s).1
  exact matEntries_idem env hdec s fs _ base hkeys
    (fun _ _ h => h) (fun _ _ _ h => h)

theorem materializeIdempotentWitness :
    (∀ p, envOk.overwriteDecision p = false) ∧
      keysOk (.consFolder "A" (.consFile "B" .nil) .nil) = true ∧
      (create_project_structure envOk
          (create_project_structure envOk emptyFS []
            (.consFolder "A" (.consFile "B" .nil) .nil)).1 []
          (.consFolder "A" (.consFile "B" .nil) .nil)).1
        = (create_project_structure envOk emptyFS []
            (.consFolder "A" (.consFile "B" .nil) .nil)).1 := by
  exact ⟨fun _ => rfl, by decide,
    materializeIdempotent envOk emptyFS [] _ (fun _ => rfl) (by decide)⟩
